import Mathlib

/-!
Verification of the incremental Lisp front-end (lexer, structural validator,
content-addressed cache, incremental session) against its specification.

The Rust sources are embedded shallowly:
  * `src/token.rs`   → namespace `VTok` (the validator/cache token model);
  * `src/lexer.rs`   → namespace `Lx` (the position-tracking lexer);
  * `src/syntax_parser.rs` → namespace `SP` (validator, hashing, cache,
    incremental session).
Machine integers are modelled by `Nat`/`Int`; the `i32` paren counter is an
`Int`; `f64` payloads of tokens and parsed values are modelled by their
literal text or by `Rat` (no claim depends on float arithmetic).  External
library collaborators (the `rsexp` expression parser, the `moka` cache, the
standard library's `DefaultHasher`) are modelled behaviourally at their
interface, as the specification prescribes.
-/

namespace LispSpec

/-! ## Token model of src/token.rs (used by the validator and the cache) -/

namespace VTok

/-- Token kinds of `src/token.rs` (`TokenType`). -/
inductive TokenType where
  | LeftParen
  | RightParen
  | Symbol
  | Number
  | String
  | Boolean
deriving DecidableEq, Repr

/-- The token structure of `src/token.rs` (`Token`). -/
structure Token where
  token_type : TokenType
  lexeme : String
  line : Nat
  column : Nat
deriving DecidableEq, Repr

end VTok

namespace SP

open VTok

/-- The error taxonomy of `src/syntax_parser.rs` (`SyntaxError`). -/
inductive SyntaxError where
  | UnexpectedClosingParen (line column : Nat)
  | UnclosedParenthesis
  | ParseError (msg : String)
  | InvalidToken (msg : String)
  | ExpectedSymbolAfterOpenParen
  | InvalidNumber (msg : String)
deriving DecidableEq, Repr

/-- Balance scan of `is_vect_ready`: the running `i32` counter is an `Int`;
a close paren is counted first and the counter tested `< 0` immediately,
reporting that token's position; a positive counter after the scan is an
`UnclosedParenthesis` error. -/
def balance_check : List Token → Int → Except SyntaxError Unit
  | [], n => if n > 0 then .error .UnclosedParenthesis else .ok ()
  | t :: rest, n =>
    match t.token_type with
    | .LeftParen => balance_check rest (n + 1)
    | .RightParen =>
        if n - 1 < 0 then .error (.UnexpectedClosingParen t.line t.column)
        else balance_check rest (n - 1)
    | _ => balance_check rest n

/-- Shape scan of `is_vect_ready`, phrased over adjacent pairs: the source
loops `i` over `0 .. tokens.len() - 1` and errors at the first `i` whose
token is an open paren followed by a token that is neither a symbol nor
another open paren. -/
def shape_check : List Token → Except SyntaxError Unit
  | a :: b :: rest =>
    if a.token_type = .LeftParen ∧ b.token_type ≠ .Symbol ∧ b.token_type ≠ .LeftParen
    then .error .ExpectedSymbolAfterOpenParen
    else shape_check (b :: rest)
  | _ => .ok ()

/-- `is_vect_ready` of `src/syntax_parser.rs`.  `none` models the panic the
source hits on an empty token vector: the shape-scan loop bound
`tokens.len() - 1` is a `usize` subtraction, which underflows (overflow
panic in a debug build; a wrapped bound followed by an out-of-bounds
`tokens[0]` panic in a release build). -/
def is_vect_ready (tokens : List Token) : Option (Except SyntaxError Unit) :=
  match balance_check tokens 0 with
  | .error e => some (.error e)
  | .ok _ =>
    if tokens.length = 0 then none
    else some (shape_check tokens)

/-- `tokens_to_string` of `src/syntax_parser.rs`: the rendering of one token
(string lexemes are re-wrapped in double quotes, everything else prints its
lexeme or its paren character). -/
def token_piece (t : Token) : String :=
  match t.token_type with
  | .LeftParen => "("
  | .RightParen => ")"
  | .Symbol => t.lexeme
  | .Number => t.lexeme
  | .String => "\"" ++ t.lexeme ++ "\""
  | .Boolean => t.lexeme

/-- `tokens_to_string`: pieces joined by single spaces. -/
def tokens_to_string (tokens : List Token) : String :=
  String.intercalate " " (tokens.map token_piece)

/-- The S-expression type of the external `rsexp` collaborator, at its
interface (`Sexp`); the `f64` payload of `Float` is modelled by `Rat`. -/
inductive Sexp where
  | Symbol (s : String)
  | String (s : String)
  | Int (i : Int)
  | Float (q : Rat)
  | List (l : List Sexp)
  | Bool (b : Bool)

/-- `LispVal` of `src/syntax_parser.rs`; `Number`'s `f64` is modelled by
`Rat`. -/
inductive LispVal where
  | Symbol (s : String)
  | Number (q : Rat)
  | String (s : String)
  | Bool (b : Bool)
  | List (l : List LispVal)

mutual

/-- `impl From<Sexp> for LispVal` of `src/syntax_parser.rs`. -/
def LispVal.from : Sexp → LispVal
  | .Symbol s => .Symbol s
  | .String s => .String s
  | .Int i => .Number (i : Rat)
  | .Float q => .Number q
  | .List l => .List (lispValFromList l)
  | .Bool b => .Bool b

/-- Elementwise conversion of a list of S-expressions. -/
def lispValFromList : List Sexp → List LispVal
  | [] => []
  | s :: rest => LispVal.from s :: lispValFromList rest

end

/-- `check_syntax_with_rsexp`: renders the tokens to text and hands the text
to the external parser.  The parser (`Sexp::from_str`) is an injected
capability, exactly as §9 of the specification prescribes for the external
collaborator; its failures are wrapped in `SyntaxError::ParseError`. -/
def check_syntax_with_rsexp (fromStr : String → Except String Sexp)
    (tokens : List Token) : Except SyntaxError LispVal :=
  match fromStr (tokens_to_string tokens) with
  | .ok sexp => .ok (LispVal.from sexp)
  | .error e => .error (.ParseError e)

/-! ## Content hashing (`hash_token_vector`)

The source feeds, for every token in order, the discriminant of its kind,
its lexeme, its line and its column into a `DefaultHasher` (SipHash-1-3, an
external standard-library collaborator) and renders the 64-bit result in
lowercase hex.  The embedding keeps that structure exactly: `hash_stream`
is the serialized field stream (the lexeme at code-point level, terminated
by a sentinel that no code point can equal, which models `String`'s
`0xFF` terminator byte — a byte valid UTF-8 never contains), and `mix` is
a concrete deterministic 64-bit digest of that stream standing in for the
external SipHash-1-3; every claim settled here depends only on the stream's
content and the digest's 64-bit codomain, not on the mixing rounds. -/

/-- Discriminant of a token kind (`std::mem::discriminant`). -/
def discTag : TokenType → Nat
  | .LeftParen => 0
  | .RightParen => 1
  | .Symbol => 2
  | .Number => 3
  | .String => 4
  | .Boolean => 5

/-- Code points never reach `0x110000`, so this value can terminate a
lexeme unambiguously (modelling the `0xFF` byte terminating `String`'s
hash feed). -/
def strTerm : Nat := 1114112

/-- A lexeme as fed to the hasher: its code points, then the terminator. -/
def encodeString (s : String) : List Nat :=
  s.data.map Char.toNat ++ [strTerm]

/-- The field stream one token contributes to the hasher: discriminant,
lexeme, line, column, in the source's order. -/
def token_stream (t : Token) : List Nat :=
  discTag t.token_type :: (encodeString t.lexeme ++ [t.line, t.column])

/-- The full field stream of a token vector. -/
def hash_stream : List Token → List Nat
  | [] => []
  | t :: ts => token_stream t ++ hash_stream ts

/-- A deterministic 64-bit digest of a stream (the model of the external
`DefaultHasher`'s `finish`): a 64-bit multiply-add fold. -/
def mix (l : List Nat) : Nat :=
  l.foldl (fun h b => (h * 1099511628211 + b) % (2 ^ 64)) 14695981039346656037

/-- Lowercase-hex digits of `n`, most significant first, onto `acc`. -/
def toHexGo (n : Nat) (acc : List Char) : List Char :=
  if h : n = 0 then acc
  else toHexGo (n / 16) (Nat.digitChar (n % 16) :: acc)
termination_by n
decreasing_by exact Nat.div_lt_self (Nat.pos_of_ne_zero h) (by norm_num)

/-- `format!("{:x}", _)` on a `u64` value. -/
def toHex (n : Nat) : String :=
  if n = 0 then "0" else String.mk (toHexGo n [])

/-- `hash_token_vector` of `src/syntax_parser.rs`. -/
def hash_token_vector (tokens : List Token) : String :=
  toHex (mix (hash_stream tokens))

/-! ## ProcessedUnit (`ReadyVec`) and the content cache -/

/-- `ReadyVec` of `src/syntax_parser.rs`; the `HashMap<String, usize>`
index is modelled as an association list built in insertion order. -/
structure ReadyVec where
  vect_tokens : List Token
  vect_line : Nat
  indices : List (String × Nat)
  parsed_value : Option LispVal

/-- `create_ready_vec`: builds the unit and registers, for each token, the
index key `format!("{}_{}", i, token.lexeme)`. -/
def create_ready_vec (tokens : List Token) (line : Nat)
    (parsed_val : Option LispVal) : ReadyVec :=
  { vect_tokens := tokens
    vect_line := line
    indices := tokens.enum.map (fun p => (toString p.1 ++ "_" ++ p.2.lexeme, p.1))
    parsed_value := parsed_val }

/-- The `moka` cache (external collaborator) at its interface: a finite map
from hash keys to units, modelled as an association list with distinct
keys.  Capacity eviction and time-to-live expiry are behaviourally
specified, orthogonal background effects (§4.4) and are not triggered by
the operations settled here, so the model performs none. -/
abbrev Cache := List (String × ReadyVec)

/-- `Cache::insert`: replaces any entry with the same key. -/
def Cache.insert (c : Cache) (k : String) (v : ReadyVec) : Cache :=
  (k, v) :: List.filter (fun p => decide (p.1 ≠ k)) c

/-- `Cache::contains_key`. -/
def Cache.contains_key (c : Cache) (k : String) : Bool :=
  List.any c (fun p => decide (p.1 = k))

/-- `Cache::get` (the map view used to state what an insert did). -/
def Cache.get (c : Cache) (k : String) : Option ReadyVec :=
  (List.find? (fun p => decide (p.1 = k)) c).map Prod.snd

/-- `Cache::invalidate`. -/
def Cache.invalidate (c : Cache) (k : String) : Cache :=
  List.filter (fun p => decide (p.1 ≠ k)) c

/-! ## The incremental session (`LispInterpreter`) -/

/-- `LispInterpreter` of `src/syntax_parser.rs`: the cache, the frontier
pointer, and the expected total number of lines. -/
structure LispInterpreter where
  ready_code : Cache
  current_ptr : Nat
  total_lines : Nat

/-- `LispInterpreter::new`: empty cache (the capacity only configures the
external cache's eviction policy), frontier 0, no lines. -/
def LispInterpreter.new (_capacity : Nat) : LispInterpreter :=
  { ready_code := [], current_ptr := 0, total_lines := 0 }

/-- `process_vector`: validate, parse via the injected external parser,
hash, build the unit, insert it, and advance the frontier to `line + 1`.
`none` models the panic inherited from `is_vect_ready` on an empty token
vector.  On an error the returned state is the state reached at the early
`?` return, which mutated nothing. -/
def process_vector (fromStr : String → Except String Sexp)
    (st : LispInterpreter) (tokens : List Token) (line : Nat) :
    Option (Except SyntaxError Unit × LispInterpreter) :=
  match is_vect_ready tokens with
  | none => none
  | some (.error e) => some (.error e, st)
  | some (.ok _) =>
    match check_syntax_with_rsexp fromStr tokens with
    | .error e => some (.error e, st)
    | .ok parsed_val =>
      let hash := hash_token_vector tokens
      let ready_vec := create_ready_vec tokens line (some parsed_val)
      some (.ok (), { st with
        ready_code := st.ready_code.insert hash ready_vec
        current_ptr := line + 1 })

/-- The match-counting loop of `should_rebuild`: one candidate line after
another is hashed and looked up; the first miss breaks the loop. -/
def count_matches (c : Cache) : List (List Token) → Nat
  | [] => 0
  | l :: rest =>
    if c.contains_key (hash_token_vector l) then count_matches c rest + 1
    else 0

/-- `should_rebuild`: true when nothing was processed or the candidate list
is empty; otherwise counts consecutive hash hits over the first
`min(current_ptr, len)` candidates and rebuilds when the match coefficient
is below one half.  The source's `f64` division of the two counters is
modelled by exact `Rat` division (both counters are far below any range
where the double rounding could differ). -/
def should_rebuild (st : LispInterpreter) (new_code : List (List Token)) : Bool :=
  if st.current_ptr = 0 ∨ new_code.isEmpty then true
  else
    let max_check := min st.current_ptr new_code.length
    let match_count := count_matches st.ready_code (new_code.take max_check)
    decide ((match_count : Rat) / (st.current_ptr : Rat) < 1 / 2)

/-- `invalidate_from`: collects the keys of all entries whose stored line
is `>= position`, invalidates each collected key, and lowers the frontier
to `position` when `position < current_ptr`. -/
def invalidate_from (st : LispInterpreter) (position : Nat) : LispInterpreter :=
  let keys := (st.ready_code.filter
    (fun e => decide (position ≤ e.2.vect_line))).map Prod.fst
  { st with
    ready_code := keys.foldl (fun c k => c.invalidate k) st.ready_code
    current_ptr := if position < st.current_ptr then position else st.current_ptr }

/-- `Tree` of `src/syntax_parser.rs`: the ordered snapshot and its
`HashMap<String, usize>` index (an association list in the model). -/
structure Tree where
  tree : List ReadyVec
  indices : List (String × Nat)

/-- `Tree::new`. -/
def Tree.new : Tree := { tree := [], indices := [] }

/-- `Tree::add_vec`: push the unit and register its key at the pushed
position (a `HashMap` insert replaces an existing key). -/
def Tree.add_vec (t : Tree) (key : String) (rv : ReadyVec) : Tree :=
  { tree := t.tree ++ [rv]
    indices := (key, t.tree.length) :: List.filter (fun p => decide (p.1 ≠ key)) t.indices }

/-- The body of `get_tree`'s outer loop: the first cache entry carrying
`line` (the inner `for`/`break`) is added as a clone under the key
`line_{n}`; a line no entry carries adds nothing (unreachable, since the
lines come from the entries themselves). -/
def tree_step (st : LispInterpreter) (t : Tree) (line : Nat) : Tree :=
  match List.find? (fun e => decide (e.2.vect_line = line)) st.ready_code with
  | some e => t.add_vec ("line_" ++ toString line) e.2
  | none => t

/-- `get_tree`: sorts the stored line numbers of all live entries (with
multiplicity) and, for each line in that sorted list, adds a clone of the
first cache entry carrying that line under the key `line_{n}`.  `sort` of
Rust is modelled by insertion sort (both sort ascending, stably). -/
def get_tree (st : LispInterpreter) : Tree :=
  let line_numbers :=
    List.insertionSort (fun a b => a ≤ b)
      (st.ready_code.map (fun e => e.2.vect_line))
  line_numbers.foldl (tree_step st) Tree.new

/-- `get_progress`. -/
def get_progress (st : LispInterpreter) : Nat × Nat :=
  (st.current_ptr, st.total_lines)

/-- `is_complete`. -/
def is_complete (st : LispInterpreter) : Bool :=
  decide (st.total_lines ≤ st.current_ptr) && decide (0 < st.total_lines)

/-! ### Specification-side vocabulary for the claims about the validator -/

/-- Number of open-paren tokens. -/
def opens (ts : List Token) : Nat :=
  ts.countP (fun t => decide (t.token_type = .LeftParen))

/-- Number of close-paren tokens. -/
def closes (ts : List Token) : Nat :=
  ts.countP (fun t => decide (t.token_type = .RightParen))

/-- The claims' balance condition: no prefix closes more parens than it
opened, and the totals agree. -/
def Balanced (ts : List Token) : Prop :=
  (∀ n < ts.length + 1, closes (ts.take n) ≤ opens (ts.take n)) ∧
  opens ts = closes ts

instance : DecidablePred Balanced := fun ts => by
  unfold Balanced
  infer_instance

/-- The claims' shape condition on one adjacent pair: an open paren must be
followed by a symbol or another open paren. -/
def shapeRule (a b : Token) : Prop :=
  a.token_type = .LeftParen →
    (b.token_type = .Symbol ∨ b.token_type = .LeftParen)

instance : ∀ a b, Decidable (shapeRule a b) := fun a b => by
  unfold shapeRule
  infer_instance

/-- The claims' shape condition: every open-paren token not at the last
position is immediately followed by a symbol or open-paren token
(pairwise over adjacent tokens, which is exactly that statement). -/
def ShapeOk (ts : List Token) : Prop :=
  List.Chain' shapeRule ts

instance : DecidablePred ShapeOk := fun ts => by
  unfold ShapeOk
  infer_instance

/-- A concrete injected external parser (accepts every rendering), used to
instantiate witnesses and counterexamples. -/
def okParser : String → Except String Sexp :=
  fun _ => .ok (.Bool true)

/-! ### Concrete session states used by witnesses and counterexamples -/

/-- A unit stored for line 0. -/
def unitA : ReadyVec :=
  { vect_tokens := [], vect_line := 0, indices := [], parsed_value := none }

/-- A different unit also stored for line 0. -/
def unitB : ReadyVec :=
  { vect_tokens := [⟨.Symbol, "y", 0, 0⟩], vect_line := 0, indices := [],
    parsed_value := none }

/-- A unit stored for line 5. -/
def unitC : ReadyVec :=
  { vect_tokens := [⟨.Symbol, "z", 5, 0⟩], vect_line := 5, indices := [],
    parsed_value := none }

/-- A session whose cache holds two entries with the same stored line 0
(reachable: two successful `process_vector` calls with different token
vectors and the same `line` argument). -/
def stDup : LispInterpreter :=
  { ready_code := [("b", unitB), ("a", unitA)], current_ptr := 1, total_lines := 0 }

/-- A session whose cache holds entries for lines 0 and 5. -/
def stInv : LispInterpreter :=
  { ready_code := [("a", unitA), ("c", unitC)], current_ptr := 6, total_lines := 7 }

end SP

/-! ## The lexer of src/lexer.rs

The lexer owns a forward character cursor and running `(line, column)`
counters: consuming any character increments `column`; consuming a newline
then resets `column` to 0 and increments `line`.  Loops of the source are
embedded as functions that recurse structurally on the remaining input;
`tokenize_all`'s outer loop gets `input length + 1` fuel, which is shown
sufficient (`tokenize_all_go_fuel`).  Rust's Unicode `is_alphanumeric` is
modelled by ASCII `Char.isAlphanum`; no settled claim distinguishes them. -/

namespace Lx

/-- `TokenEnum` of `src/lexer.rs`.  `Number`'s payload is the literal text
where the source stores the `f64` this text parses to; parsing succeeds for
every literal the number loop can build (digits, at most one dot, an
optional sign followed by a digit), so the source's fall-back-to-symbol
branch on parse failure is unreachable and no claim inspects the value. -/
inductive TokenEnum where
  | LeftParen
  | RightParen
  | Quote
  | Symbol (s : String)
  | Number (lit : String)
  | String (s : String)
  | Bool (b : Bool)
  | EOF
  | Error (msg : String)
deriving DecidableEq, Repr

/-- `Token` of `src/lexer.rs`: a token with the position attached by
`tokenize_all`. -/
structure Token where
  token : TokenEnum
  line : Nat
  column : Nat
deriving DecidableEq, Repr

/-- The lexer's cursor state: remaining input and the two counters. -/
structure LexState where
  input : List Char
  line : Nat
  column : Nat
deriving DecidableEq, Repr

/-- `Lexer::new`: line counter 1, column counter 0. -/
def LexState.init (s : String) : LexState :=
  { input := s.data, line := 1, column := 0 }

/-- Counter update of `next_element` for one consumed character. -/
def advancePos (c : Char) (line column : Nat) : Nat × Nat :=
  if c = '\n' then (line + 1, 0) else (line, column + 1)

/-- `trim`, single pass: skips space/newline/tab/CR; a `;` enters comment
mode (the `Bool` argument), which consumes through the next newline and
returns to normal skipping; any other character stops the scan. -/
def trimGo : Bool → List Char → Nat → Nat → List Char × Nat × Nat
  | _, [], l, c => ([], l, c)
  | true, ch :: rest, l, c =>
    let p := advancePos ch l c
    if ch = '\n' then trimGo false rest p.1 p.2
    else trimGo true rest p.1 p.2
  | false, ch :: rest, l, c =>
    if ch = ' ' ∨ ch = '\n' ∨ ch = '\t' ∨ ch = '\r' then
      let p := advancePos ch l c
      trimGo false rest p.1 p.2
    else if ch = ';' then
      let p := advancePos ch l c
      trimGo true rest p.1 p.2
    else (ch :: rest, l, c)

/-- The recognized punctuation set of `is_valid_character` (the source's
string literal `()[]{}"'`,;#|\+-*/=<>!?_. \t\n\r`; the braces and the
backtick are written via `Char.ofNat`). -/
def valid_punct : List Char :=
  ['(', ')', '[', ']', Char.ofNat 123, Char.ofNat 125, '\"', '\'', Char.ofNat 96,
   ',', ';', '#', '|', '\\', '+', '-', '*', '/', '=', '<', '>', '!', '?', '_', '.',
   ' ', '\t', '\n', '\r']

/-- `is_valid_character`. -/
def is_valid_character (c : Char) : Bool :=
  c.isAlphanum || valid_punct.contains c

/-- The symbol-continuation set of `tokenize_symbol` (`+-*/=<>!_?`). -/
def symbol_chars : List Char :=
  ['+', '-', '*', '/', '=', '<', '>', '!', '_', '?']

/-- One continuation character of a symbol. -/
def isSymbolChar (c : Char) : Bool :=
  c.isAlphanum || symbol_chars.contains c

/-- The consuming loop of `tokenize_symbol`. -/
def symbolGo : List Char → Nat → Nat → String → String × List Char × Nat × Nat
  | [], l, c, acc => (acc, [], l, c)
  | ch :: rest, l, c, acc =>
    if isSymbolChar ch then
      let p := advancePos ch l c
      symbolGo rest p.1 p.2 (acc.push ch)
    else (acc, ch :: rest, l, c)

/-- `tokenize_symbol`, seeded with the already consumed first character. -/
def tokenize_symbol (first : Char) (input : List Char) (l c : Nat) :
    TokenEnum × List Char × Nat × Nat :=
  let r := symbolGo input l c (String.singleton first)
  (.Symbol r.1, r.2)

/-- The consuming loop of `tokenize_number`: digits, plus at most one dot
(the `Bool` argument records that a dot was taken). -/
def digitGo : List Char → Nat → Nat → Bool → String → String × List Char × Nat × Nat
  | [], l, c, _, acc => (acc, [], l, c)
  | ch :: rest, l, c, dot, acc =>
    if ch.isDigit then
      let p := advancePos ch l c
      digitGo rest p.1 p.2 dot (acc.push ch)
    else if ch = '.' ∧ dot = false then
      let p := advancePos ch l c
      digitGo rest p.1 p.2 true (acc.push ch)
    else (acc, ch :: rest, l, c)

/-- Peek test of `tokenize_number`'s early sign check: there is a next
character and it is not a digit (`map_or(false, ..)`). -/
def peekNotDigit : List Char → Bool
  | d :: _ => !d.isDigit
  | [] => false

/-- Peek test of `next_token`'s sign dispatch: next character is a digit. -/
def peekIsDigit : List Char → Bool
  | d :: _ => d.isDigit
  | [] => false

/-- `tokenize_number`, seeded with the already consumed first character. -/
def tokenize_number (first : Char) (input : List Char) (l c : Nat) :
    TokenEnum × List Char × Nat × Nat :=
  if (first = '-' ∨ first = '+') ∧ peekNotDigit input = true then
    (.Symbol (String.singleton first), input, l, c)
  else
    let r := digitGo input l c false (String.singleton first)
    (.Number r.1, r.2)

/-- Escape translation inside a string literal: `n t r \ "` become their
control character, anything else passes through. -/
def escChar (e : Char) : Char :=
  if e = 'n' then '\n'
  else if e = 't' then '\t'
  else if e = 'r' then '\r'
  else if e = '\\' then '\\'
  else if e = '\"' then '\"'
  else e

/-- The scan loop of `tokenize_string`: an unescaped `"` is consumed and
ends the scan; a backslash consumes the next character and pushes its
translation (a backslash at end of input is consumed and the loop then
exits); any other character is pushed; end of input ends the scan. -/
def stringGo : List Char → Nat → Nat → String → String × List Char × Nat × Nat
  | [], l, c, acc => (acc, [], l, c)
  | ch :: rest, l, c, acc =>
    if ch = '\"' then
      let p := advancePos ch l c
      (acc, rest, p.1, p.2)
    else if ch = '\\' then
      let p := advancePos ch l c
      match rest with
      | [] => (acc, [], p.1, p.2)
      | e :: rest2 =>
        let q := advancePos e p.1 p.2
        stringGo rest2 q.1 q.2 (acc.push (escChar e))
    else
      let p := advancePos ch l c
      stringGo rest p.1 p.2 (acc.push ch)

/-- `tokenize_string`.  The source's first statement is an unconditional
`next_element()`; it was written to skip the opening quote, but its only
caller (`next_token`'s `"` arm) has already consumed that quote, so the
call consumes — and discards — the first character after the quote. -/
def tokenize_string (input : List Char) (l c : Nat) :
    TokenEnum × List Char × Nat × Nat :=
  match input with
  | [] => (.String "", [], l, c)
  | ch :: rest =>
    let p := advancePos ch l c
    let r := stringGo rest p.1 p.2 ""
    (.String r.1, r.2)

/-- Repack a tokenizer result as a token and a cursor state. -/
def mkSt (r : TokenEnum × List Char × Nat × Nat) : TokenEnum × LexState :=
  (r.1, { input := r.2.1, line := r.2.2.1, column := r.2.2.2 })

/-- The dispatch of `next_token` on the consumed character `ch` (at the
trimmed position `(tl, tc)`, with `rest` still unconsumed).  The
invalidity check precedes the dispatch; its error message uses the
position after the offending character was consumed (the source's
`error_handle`, typos included).  The `"` arm decrements the column
counter by one before calling `tokenize_string` (the source's
`self.column -= 1`). -/
def dispatch (ch : Char) (rest : List Char) (tl tc : Nat) : TokenEnum × LexState :=
  let p := advancePos ch tl tc
  let l1 := p.1
  let c1 := p.2
  if ¬ is_valid_character ch = true then
    (.Error ("Invalid charecter " ++ ch.toString ++ " at line: " ++
      toString l1 ++ " clomun " ++ toString c1),
     { input := rest, line := l1, column := c1 })
  else if ch = '(' then (.LeftParen, { input := rest, line := l1, column := c1 })
  else if ch = ')' then (.RightParen, { input := rest, line := l1, column := c1 })
  else if ch = '\'' then (.Quote, { input := rest, line := l1, column := c1 })
  else if ch = '\"' then mkSt (tokenize_string rest l1 (c1 - 1))
  else if ch = '#' then
    match rest with
    | [] => (.Symbol "#", { input := [], line := l1, column := c1 })
    | b :: rest2 =>
      if b = 't' then
        let q := advancePos b l1 c1
        (.Bool true, { input := rest2, line := q.1, column := q.2 })
      else if b = 'f' then
        let q := advancePos b l1 c1
        (.Bool false, { input := rest2, line := q.1, column := q.2 })
      else mkSt (tokenize_symbol '#' rest l1 c1)
  else if ch.isDigit then mkSt (tokenize_number ch rest l1 c1)
  else if ch = '-' ∨ ch = '+' then
    if peekIsDigit rest then mkSt (tokenize_number ch rest l1 c1)
    else mkSt (tokenize_symbol ch rest l1 c1)
  else mkSt (tokenize_symbol ch rest l1 c1)

/-- `next_token`: trim, consume one character, dispatch; end of input
yields the EOF token. -/
def next_token (st : LexState) : TokenEnum × LexState :=
  match trimGo false st.input st.line st.column with
  | ([], tl, tc) => (.EOF, { input := [], line := tl, column := tc })
  | (ch :: rest, tl, tc) => dispatch ch rest tl tc

/-- The loop of `tokenize_all`: each produced token is wrapped with
`get_position()` — the cursor position *after* `next_token` returned — and
the loop ends after pushing the EOF token. -/
def tokenize_all_go : Nat → LexState → List Token
  | 0, _ => []
  | Nat.succ n, st =>
    let r := next_token st
    let tok : Token := { token := r.1, line := r.2.line, column := r.2.column }
    if r.1 = .EOF then [tok] else tok :: tokenize_all_go n r.2

/-- `tokenize_all`: the fuel `length + 1` is sufficient because every
non-EOF token consumes at least one character (`tokenize_all_go_fuel`). -/
def tokenize_all (s : String) : List Token :=
  tokenize_all_go (s.length + 1) (LexState.init s)

/-- One step of the lexer: the cursor state `next_token` leaves behind. -/
def lexStep (st : LexState) : LexState :=
  (next_token st).2

end Lx

/-! ## Bridging the lexer's tokens to the validator's tokens -/

/-- Modelled from the spec: the repository contains no code adapting the
lexer's `Token` (src/lexer.rs) to the validator's `Token` (src/token.rs) —
the demo harness builds validator tokens by hand — while the
specification's data flow (§2) feeds the lexer's tokens to the validator
under a single token model `{kind, lexeme, line, column}` (§3).  The
adaptation therefore preserves kind, lexeme, line and column ("Position
reported on every token", §4.1, travels with the token); lexer-only kinds
(quote, end-of-input, lex-error) have no validator counterpart and are
dropped. -/
def toValidatorToken (t : Lx.Token) : Option VTok.Token :=
  match t.token with
  | .LeftParen => some
      { token_type := .LeftParen, lexeme := "(", line := t.line, column := t.column }
  | .RightParen => some
      { token_type := .RightParen, lexeme := ")", line := t.line, column := t.column }
  | .Symbol s => some
      { token_type := .Symbol, lexeme := s, line := t.line, column := t.column }
  | .Number lit => some
      { token_type := .Number, lexeme := lit, line := t.line, column := t.column }
  | .String s => some
      { token_type := .String, lexeme := s, line := t.line, column := t.column }
  | .Bool b => some
      { token_type := .Boolean, lexeme := if b then "#t" else "#f",
        line := t.line, column := t.column }
  | .Quote => none
  | .EOF => none
  | .Error _ => none

/-- Tokenize one source line and adapt its tokens for validation. -/
def lexLine (s : String) : List VTok.Token :=
  (Lx.tokenize_all s).filterMap toValidatorToken

/-! ## Helper lemmas about the content hash -/

namespace SP

open VTok

theorem discTag_injective : Function.Injective discTag := by
  intro a b h
  cases a <;> cases b <;> first | rfl | simp [discTag] at h

theorem char_toNat_lt (c : Char) : c.toNat < strTerm := by
  have h := c.valid
  rcases h with h | h
  · have : c.val.toNat < 55296 := h
    simp only [Char.toNat, strTerm]
    omega
  · have : c.val.toNat < 1114112 := h.2
    simp only [Char.toNat, strTerm]
    omega

theorem char_toNat_injective : Function.Injective Char.toNat := by
  intro a b h
  have hv : a.val = b.val := UInt32.ext h
  cases a
  cases b
  simp_all

theorem encodeString_mem_lt {s : String} {x : Nat}
    (hx : x ∈ s.data.map Char.toNat) : x < strTerm := by
  rcases List.mem_map.mp hx with ⟨c, _, rfl⟩
  exact char_toNat_lt c

/-- Splitting two streams at the first terminator: the parts before it
contain no terminator, so they coincide, and so do the parts after it. -/
theorem append_term_injective :
    ∀ (m1 m2 r1 r2 : List Nat), (∀ x ∈ m1, x < strTerm) → (∀ x ∈ m2, x < strTerm) →
    m1 ++ strTerm :: r1 = m2 ++ strTerm :: r2 → m1 = m2 ∧ r1 = r2 := by
  intro m1
  induction m1 with
  | nil =>
    intro m2 r1 r2 _ h2 he
    cases m2 with
    | nil => simpa using he
    | cons y m2 =>
      simp only [List.nil_append, List.cons_append, List.cons.injEq] at he
      have : y < strTerm := h2 y (by simp)
      omega
  | cons x m1 ih =>
    intro m2 r1 r2 h1 h2 he
    cases m2 with
    | nil =>
      simp only [List.nil_append, List.cons_append, List.cons.injEq] at he
      have : x < strTerm := h1 x (by simp)
      omega
    | cons y m2 =>
      simp only [List.cons_append, List.cons.injEq] at he
      obtain ⟨rfl, he⟩ := he
      obtain ⟨h, h'⟩ := ih m2 r1 r2 (fun a ha => h1 a (by simp [ha]))
        (fun a ha => h2 a (by simp [ha])) he
      exact ⟨by rw [h], h'⟩

/-- One token's contribution followed by a remainder determines the token
and the remainder. -/
theorem token_stream_append_injective (t t' : Token) (r r' : List Nat)
    (h : token_stream t ++ r = token_stream t' ++ r') :
    t = t' ∧ r = r' := by
  simp only [token_stream, List.cons_append, List.cons.injEq, List.append_assoc] at h
  obtain ⟨hd, h⟩ := h
  have hk := discTag_injective hd
  simp only [encodeString, List.append_assoc, List.cons_append] at h
  obtain ⟨hm, hr⟩ := append_term_injective _ _ _ _
    (fun x hx => encodeString_mem_lt hx) (fun x hx => encodeString_mem_lt hx) h
  have hlex : t.lexeme = t'.lexeme := by
    have hd2 : t.lexeme.data = t'.lexeme.data :=
      List.map_injective_iff.mpr char_toNat_injective hm
    exact String.ext hd2
  injection hr with hline hr2
  injection hr2 with hcol hrest
  refine ⟨?_, hrest⟩
  cases t
  cases t'
  simp_all

/-- The hasher's field stream is injective on token vectors: any alteration
of any field of any token, or of the token count, changes the stream. -/
theorem hash_stream_injective : Function.Injective hash_stream := by
  intro ts
  induction ts with
  | nil =>
    intro ts' h
    cases ts' with
    | nil => rfl
    | cons t' rest' =>
      exfalso
      simp only [hash_stream, token_stream] at h
      exact absurd h.symm (by simp)
  | cons t rest ih =>
    intro ts' h
    cases ts' with
    | nil =>
      exfalso
      simp only [hash_stream, token_stream] at h
      exact absurd h (by simp)
    | cons t' rest' =>
      simp only [hash_stream] at h
      obtain ⟨rfl, hr⟩ := token_stream_append_injective t t' _ _ h
      rw [ih hr]

theorem mix_lt (l : List Nat) : mix l < 2 ^ 64 := by
  have : ∀ (h : Nat), h < 2 ^ 64 →
      List.foldl (fun h b => (h * 1099511628211 + b) % (2 ^ 64)) h l < 2 ^ 64 := by
    induction l with
    | nil => intro h hh; simpa using hh
    | cons b l ih =>
      intro h _
      exact ih _ (Nat.mod_lt _ (by norm_num))
  exact this _ (by norm_num)

/-- Decoder for the sixteen digit characters the hex renderer can emit. -/
def unhex (c : Char) : Nat :=
  if c = '0' then 0 else if c = '1' then 1 else if c = '2' then 2
  else if c = '3' then 3 else if c = '4' then 4 else if c = '5' then 5
  else if c = '6' then 6 else if c = '7' then 7 else if c = '8' then 8
  else if c = '9' then 9 else if c = 'a' then 10 else if c = 'b' then 11
  else if c = 'c' then 12 else if c = 'd' then 13 else if c = 'e' then 14
  else 15

theorem unhex_digitChar : ∀ d < 16, unhex (Nat.digitChar d) = d := by decide

/-- Value of a digit string, most significant first. -/
def unhexList (l : List Char) : Nat :=
  l.foldl (fun a c => a * 16 + unhex c) 0

theorem unhexFold (l : List Char) :
    ∀ a, l.foldl (fun a c => a * 16 + unhex c) a = a * 16 ^ l.length + unhexList l := by
  induction l with
  | nil => intro a; simp [unhexList]
  | cons c l ih =>
    intro a
    show l.foldl _ (a * 16 + unhex c) = _
    rw [ih (a * 16 + unhex c)]
    have h0 : unhexList (c :: l) = unhex c * 16 ^ l.length + unhexList l := by
      show l.foldl _ (0 * 16 + unhex c) = _
      rw [ih (0 * 16 + unhex c)]
      ring
    rw [h0]
    simp [List.length_cons, pow_succ]
    ring

theorem unhex_toHexGo (n : Nat) :
    ∀ acc, unhexList (toHexGo n acc) = n * 16 ^ acc.length + unhexList acc := by
  induction n using Nat.strong_induction_on with
  | _ n ih =>
    intro acc
    rw [toHexGo]
    by_cases h : n = 0
    · simp [h]
    · simp only [h, dite_false]
      rw [ih (n / 16) (Nat.div_lt_self (Nat.pos_of_ne_zero h) (by norm_num))]
      have hd : unhexList (Nat.digitChar (n % 16) :: acc) =
          (n % 16) * 16 ^ acc.length + unhexList acc := by
        show acc.foldl _ (0 * 16 + unhex (Nat.digitChar (n % 16))) = _
        rw [unhexFold, unhex_digitChar _ (Nat.mod_lt _ (by norm_num))]
        ring
      rw [List.length_cons, hd, pow_succ]
      have hn := Nat.div_add_mod n 16
      conv_rhs => rw [← hn]
      ring

theorem toHex_injective : Function.Injective toHex := by
  intro n m h
  have key : ∀ k : Nat, k ≠ 0 → unhexList (toHex k).data = k := by
    intro k hk
    simp only [toHex, hk, if_false]
    have := unhex_toHexGo k []
    simpa using this
  by_cases hn : n = 0 <;> by_cases hm : m = 0
  · omega
  · exfalso
    have : unhexList (toHex m).data = m := key m hm
    rw [← h, hn] at this
    simp [toHex, unhexList, unhex] at this
    omega
  · exfalso
    have : unhexList (toHex n).data = n := key n hn
    rw [h, hm] at this
    simp [toHex, unhexList, unhex] at this
    omega
  · have h1 := key n hn
    have h2 := key m hm
    rw [h] at h1
    omega

/-- Keys coincide exactly when the digests coincide. -/
theorem hash_token_vector_eq_iff (ts ts' : List Token) :
    hash_token_vector ts = hash_token_vector ts' ↔
    mix (hash_stream ts) = mix (hash_stream ts') := by
  constructor
  · exact fun h => toHex_injective h
  · intro h
    simp [hash_token_vector, h]

end SP

/-! ## Claim C4 — the content-hash function -/

/-- C4, corrected.  The key of `hash_token_vector` is a deterministic
function of the token sequence alone — element-wise identical sequences
give identical keys whatever line produced them — and altering any single
token field (kind, lexeme, line, or column), indeed making any change at
all to the sequence, changes the field stream fed to the 64-bit hasher;
the keys themselves coincide exactly when the 64-bit digests coincide, so
a single-field alteration changes the key unless the digest collides.
(The claim's unconditional "changes the key" is refuted by
`C4_counterexample`: a 64-bit digest of unboundedly many streams must
collide.) -/
theorem C4_theorem : ∀ ts ts' : List VTok.Token,
    (SP.hash_stream ts = SP.hash_stream ts' ↔ ts = ts') ∧
    (SP.hash_token_vector ts = SP.hash_token_vector ts' ↔
      SP.mix (SP.hash_stream ts) = SP.mix (SP.hash_stream ts')) := by
  intro ts ts'
  constructor
  · exact ⟨fun h => SP.hash_stream_injective h, fun h => by rw [h]⟩
  · exact SP.hash_token_vector_eq_iff ts ts'

/-- C4, counterexample to the claim as stated: there exist two token
sequences that differ only in the lexeme field of their single token and
still map to the same cache key — the digest is 64 bits wide, so among
infinitely many distinct lexemes two must collide. -/
theorem C4_counterexample : ∃ s1 s2 : String, s1 ≠ s2 ∧
    SP.hash_token_vector [⟨VTok.TokenType.Symbol, s1, 0, 0⟩] =
      SP.hash_token_vector [⟨VTok.TokenType.Symbol, s2, 0, 0⟩] := by
  obtain ⟨m, n, hmn, heq⟩ := Finite.exists_ne_map_eq_of_infinite
    (fun k : Nat =>
      (⟨SP.mix (SP.hash_stream
          [⟨VTok.TokenType.Symbol, String.mk (List.replicate k 'a'), 0, 0⟩]),
        SP.mix_lt _⟩ : Fin (2 ^ 64)))
  refine ⟨String.mk (List.replicate m 'a'), String.mk (List.replicate n 'a'), ?_, ?_⟩
  · intro hs
    apply hmn
    have hdata : List.replicate m 'a' = List.replicate n 'a' := by
      simpa using congrArg String.data hs
    simpa using congrArg List.length hdata
  · have hm : SP.mix (SP.hash_stream
        [⟨VTok.TokenType.Symbol, String.mk (List.replicate m 'a'), 0, 0⟩]) =
      SP.mix (SP.hash_stream
        [⟨VTok.TokenType.Symbol, String.mk (List.replicate n 'a'), 0, 0⟩]) :=
      congrArg Fin.val heq
    exact (SP.hash_token_vector_eq_iff _ _).mpr hm

/-! ## Helper lemmas about the structural validator -/

namespace SP

open VTok

theorem opens_cons (t : Token) (ts : List Token) :
    opens (t :: ts) = opens ts + (if t.token_type = .LeftParen then 1 else 0) := by
  simp [opens, List.countP_cons]

theorem closes_cons (t : Token) (ts : List Token) :
    closes (t :: ts) = closes ts + (if t.token_type = .RightParen then 1 else 0) := by
  simp [closes, List.countP_cons]

/-- The balance scan accepts whenever the incoming counter keeps every
prefix non-negative and lands at zero. -/
theorem balance_check_ok (ts : List Token) :
    ∀ c : Int, 0 ≤ c →
    (∀ n < ts.length + 1, (closes (ts.take n) : Int) ≤ (opens (ts.take n) : Int) + c) →
    ((opens ts : Int) + c = (closes ts : Int)) →
    balance_check ts c = .ok () := by
  induction ts with
  | nil =>
    intro c _ _ htot
    have hc : c = 0 := by
      simp [opens, closes] at htot
      omega
    simp [balance_check, hc]
  | cons t rest ih =>
    intro c hc hpre htot
    have hstep : ∀ n, n < rest.length + 1 → n + 1 < (t :: rest).length + 1 := by
      intro n hn
      simp only [List.length_cons]
      omega
    cases htype : t.token_type with
    | LeftParen =>
      have hred : balance_check (t :: rest) c = balance_check rest (c + 1) := by
        simp [balance_check, htype]
      rw [hred]
      apply ih (c + 1) (by omega)
      · intro n hn
        have h1 := hpre (n + 1) (hstep n hn)
        rw [List.take_succ_cons, closes_cons, opens_cons, htype] at h1
        simp at h1
        omega
      · have h2 := htot
        rw [closes_cons, opens_cons, htype] at h2
        simp at h2
        omega
    | RightParen =>
      have hone := hpre 1 (by simp)
      rw [List.take_succ_cons, List.take_zero, closes_cons, opens_cons, htype] at hone
      simp [opens, closes] at hone
      have hcpos : (1 : Int) ≤ c := by omega
      have hred : balance_check (t :: rest) c = balance_check rest (c - 1) := by
        have : ¬ (c - 1 < 0) := by omega
        simp [balance_check, htype, this]
      rw [hred]
      apply ih (c - 1) (by omega)
      · intro n hn
        have h1 := hpre (n + 1) (hstep n hn)
        rw [List.take_succ_cons, closes_cons, opens_cons, htype] at h1
        simp at h1
        omega
      · have h2 := htot
        rw [closes_cons, opens_cons, htype] at h2
        simp at h2
        omega
    | Symbol =>
      have hred : balance_check (t :: rest) c = balance_check rest c := by
        simp [balance_check, htype]
      rw [hred]
      apply ih c hc
      · intro n hn
        have h1 := hpre (n + 1) (hstep n hn)
        rw [List.take_succ_cons, closes_cons, opens_cons, htype] at h1
        simp at h1
        omega
      · have h2 := htot
        rw [closes_cons, opens_cons, htype] at h2
        simp at h2
        omega
    | Number =>
      have hred : balance_check (t :: rest) c = balance_check rest c := by
        simp [balance_check, htype]
      rw [hred]
      apply ih c hc
      · intro n hn
        have h1 := hpre (n + 1) (hstep n hn)
        rw [List.take_succ_cons, closes_cons, opens_cons, htype] at h1
        simp at h1
        omega
      · have h2 := htot
        rw [closes_cons, opens_cons, htype] at h2
        simp at h2
        omega
    | String =>
      have hred : balance_check (t :: rest) c = balance_check rest c := by
        simp [balance_check, htype]
      rw [hred]
      apply ih c hc
      · intro n hn
        have h1 := hpre (n + 1) (hstep n hn)
        rw [List.take_succ_cons, closes_cons, opens_cons, htype] at h1
        simp at h1
        omega
      · have h2 := htot
        rw [closes_cons, opens_cons, htype] at h2
        simp at h2
        omega
    | Boolean =>
      have hred : balance_check (t :: rest) c = balance_check rest c := by
        simp [balance_check, htype]
      rw [hred]
      apply ih c hc
      · intro n hn
        have h1 := hpre (n + 1) (hstep n hn)
        rw [List.take_succ_cons, closes_cons, opens_cons, htype] at h1
        simp at h1
        omega
      · have h2 := htot
        rw [closes_cons, opens_cons, htype] at h2
        simp at h2
        omega

/-- A balanced vector passes the balance scan started at zero. -/
theorem balance_check_of_balanced {ts : List Token} (h : Balanced ts) :
    balance_check ts 0 = .ok () := by
  apply balance_check_ok ts 0 le_rfl
  · intro n hn
    have := h.1 n hn
    omega
  · have := h.2
    omega

/-- The shape scan returns `ok` or the shape error, nothing else. -/
theorem shape_check_cases (ts : List Token) :
    shape_check ts = .ok () ∨
    shape_check ts = .error .ExpectedSymbolAfterOpenParen := by
  induction ts with
  | nil => left; rfl
  | cons a rest ih =>
    cases rest with
    | nil => left; rfl
    | cons b rest2 =>
      by_cases hcond : a.token_type = .LeftParen ∧
          b.token_type ≠ .Symbol ∧ b.token_type ≠ .LeftParen
      · right
        simp [shape_check, hcond]
      · have hred : shape_check (a :: b :: rest2) = shape_check (b :: rest2) := by
          simp [shape_check, hcond]
        rw [hred]
        exact ih

/-- The shape scan succeeds exactly on vectors satisfying the shape rule. -/
theorem shape_check_ok_iff (ts : List Token) :
    shape_check ts = .ok () ↔ ShapeOk ts := by
  induction ts with
  | nil => simp [shape_check, ShapeOk]
  | cons a rest ih =>
    cases rest with
    | nil =>
      simp [shape_check, ShapeOk]
    | cons b rest2 =>
      by_cases hcond : a.token_type = .LeftParen ∧
          b.token_type ≠ .Symbol ∧ b.token_type ≠ .LeftParen
      · constructor
        · intro h
          exfalso
          simp [shape_check, hcond] at h
        · intro h
          exfalso
          have hr := (List.chain'_cons.mp h).1
          have := hr hcond.1
          rcases this with h1 | h1
          · exact hcond.2.1 h1
          · exact hcond.2.2 h1
      · have hred : shape_check (a :: b :: rest2) = shape_check (b :: rest2) := by
          simp [shape_check, hcond]
        rw [hred, ih]
        unfold ShapeOk
        rw [List.chain'_cons]
        constructor
        · intro h
          refine ⟨?_, h⟩
          intro ha
          by_contra hno
          push_neg at hno
          exact hcond ⟨ha, hno.1, hno.2⟩
        · exact fun h => h.2

theorem is_vect_ready_nil : is_vect_ready [] = none := rfl

/-- On a non-empty vector whose balance scan passes, `is_vect_ready` is
the shape scan. -/
theorem is_vect_ready_okbal {ts : List Token} (hb : balance_check ts 0 = .ok ())
    (h : ts ≠ []) : is_vect_ready ts = some (shape_check ts) := by
  have hlen : ¬ ts.length = 0 := by
    intro h0
    exact h (List.length_eq_zero.mp h0)
  simp [is_vect_ready, hb, hlen]

/-- On a non-empty vector `is_vect_ready` terminates with a result. -/
theorem is_vect_ready_exists {ts : List Token} (h : ts ≠ []) :
    ∃ r, is_vect_ready ts = some r := by
  cases hb : balance_check ts 0 with
  | error e =>
    exact ⟨.error e, by simp [is_vect_ready, hb]⟩
  | ok u =>
    cases u
    exact ⟨shape_check ts, is_vect_ready_okbal hb h⟩

end SP

/-! ## Claim C6 — validation of balanced vectors -/

/-- C6, corrected by restricting to non-empty vectors (the empty vector is
balanced and vacuously satisfies the shape rule, yet the validator panics
on it, see `C6_counterexample` and C10): for every non-empty token
sequence with balanced parentheses, `is_vect_ready` succeeds iff every
open-paren not at the last position is immediately followed by a symbol or
open-paren, and when that shape rule fails the error is
`ExpectedSymbolAfterOpenParen`. -/
theorem C6_theorem : ∀ ts : List VTok.Token, ts ≠ [] → SP.Balanced ts →
    ((SP.is_vect_ready ts = some (.ok ()) ↔ SP.ShapeOk ts) ∧
     (¬ SP.ShapeOk ts →
       SP.is_vect_ready ts = some (.error .ExpectedSymbolAfterOpenParen))) := by
  intro ts hne hbal
  have hb := SP.balance_check_of_balanced hbal
  have hv := SP.is_vect_ready_okbal hb hne
  rw [hv]
  constructor
  · rw [Option.some_inj]
    exact SP.shape_check_ok_iff ts
  · intro hno
    rcases SP.shape_check_cases ts with h | h
    · exact absurd ((SP.shape_check_ok_iff ts).mp h) hno
    · rw [h]

/-- C6, witness: the vector for `(f)` is non-empty, balanced, satisfies the
shape rule, and validates successfully. -/
theorem C6_witness :
    (([⟨VTok.TokenType.LeftParen, "(", 0, 0⟩, ⟨VTok.TokenType.Symbol, "f", 0, 1⟩,
       ⟨VTok.TokenType.RightParen, ")", 0, 2⟩] : List VTok.Token) ≠ [] ∧
     SP.Balanced [⟨VTok.TokenType.LeftParen, "(", 0, 0⟩,
       ⟨VTok.TokenType.Symbol, "f", 0, 1⟩, ⟨VTok.TokenType.RightParen, ")", 0, 2⟩]) ∧
    (SP.is_vect_ready [⟨VTok.TokenType.LeftParen, "(", 0, 0⟩,
        ⟨VTok.TokenType.Symbol, "f", 0, 1⟩, ⟨VTok.TokenType.RightParen, ")", 0, 2⟩] =
        some (.ok ()) ↔
      SP.ShapeOk [⟨VTok.TokenType.LeftParen, "(", 0, 0⟩,
        ⟨VTok.TokenType.Symbol, "f", 0, 1⟩, ⟨VTok.TokenType.RightParen, ")", 0, 2⟩]) :=
  ⟨⟨by decide, by decide⟩, (C6_theorem _ (by decide) (by decide)).1⟩

/-- C6, counterexample to the claim as stated: the empty token sequence is
balanced and vacuously satisfies the shape rule, but validation does not
succeed on it — the source panics (`none` in the model), because the shape
loop bound `tokens.len() - 1` underflows. -/
theorem C6_counterexample :
    SP.Balanced ([] : List VTok.Token) ∧ SP.ShapeOk ([] : List VTok.Token) ∧
    SP.is_vect_ready ([] : List VTok.Token) = none :=
  ⟨by decide, by decide, rfl⟩

/-! ## Claim C10 — the validator's domain -/

/-- C10, confirmed: validation (and hence `process_vector`) is total on
non-empty token vectors — it terminates with a success or error result —
but the empty token vector is outside the defined domain: the shape-scan
loop bound `tokens.len() - 1` underflows (`none` models the panic), a
precondition the specification never states. -/
theorem C10_theorem :
    (SP.is_vect_ready ([] : List VTok.Token) = none) ∧
    (∀ fromStr st line, SP.process_vector fromStr st [] line = none) ∧
    (∀ ts : List VTok.Token, ts ≠ [] →
      (∃ r, SP.is_vect_ready ts = some r) ∧
      (∀ fromStr st line, ∃ r', SP.process_vector fromStr st ts line = some r')) := by
  refine ⟨rfl, fun fromStr st line => rfl, fun ts hne => ?_⟩
  obtain ⟨r, hr⟩ := SP.is_vect_ready_exists hne
  refine ⟨⟨r, hr⟩, fun fromStr st line => ?_⟩
  cases r with
  | error e =>
    exact ⟨(.error e, st), by simp [SP.process_vector, hr]⟩
  | ok u =>
    cases u
    cases hp : SP.check_syntax_with_rsexp fromStr ts with
    | error e =>
      exact ⟨(.error e, st), by simp [SP.process_vector, hr, hp]⟩
    | ok v =>
      exact ⟨(.ok (), { st with
        ready_code := st.ready_code.insert (SP.hash_token_vector ts)
          (SP.create_ready_vec ts line (some v)),
        current_ptr := line + 1 }), by simp [SP.process_vector, hr, hp]⟩

/-- C10, witness: a concrete non-empty vector is inside the domain and the
empty vector is outside it. -/
theorem C10_witness :
    (([⟨VTok.TokenType.Symbol, "x", 0, 0⟩] : List VTok.Token) ≠ []) ∧
    (∃ r, SP.is_vect_ready [⟨VTok.TokenType.Symbol, "x", 0, 0⟩] = some r) ∧
    SP.is_vect_ready ([] : List VTok.Token) = none :=
  ⟨by decide, (C10_theorem.2.2 _ (by decide)).1, C10_theorem.1⟩

/-! ## Helper lemmas about the cache and the session operations -/

namespace SP

open VTok

theorem cache_get_insert_self (c : Cache) (k : String) (v : ReadyVec) :
    (c.insert k v).get k = some v := by
  unfold Cache.insert Cache.get
  rw [List.find?_cons_of_pos _ (by simp)]
  rfl

theorem find?_filter_ne (c : Cache) (k k' : String) (h : k' ≠ k) :
    List.find? (fun p => decide (p.1 = k')) (List.filter (fun p => decide (p.1 ≠ k)) c) =
      List.find? (fun p => decide (p.1 = k')) c := by
  induction c with
  | nil => rfl
  | cons a c ih =>
    by_cases ha : a.1 = k
    · have hne : ¬ a.1 = k' := by
        rw [ha]
        exact fun hh => h hh.symm
      rw [List.filter_cons_of_neg (by simp [ha]),
        List.find?_cons_of_neg _ (by simp [hne]), ih]
    · rw [List.filter_cons_of_pos (by simp [ha])]
      by_cases ha' : a.1 = k'
      · rw [List.find?_cons_of_pos _ (by simp [ha']),
          List.find?_cons_of_pos _ (by simp [ha'])]
      · rw [List.find?_cons_of_neg _ (by simp [ha']),
          List.find?_cons_of_neg _ (by simp [ha']), ih]

theorem cache_get_insert_ne (c : Cache) (k k' : String) (v : ReadyVec)
    (h : k' ≠ k) : (c.insert k v).get k' = c.get k' := by
  unfold Cache.insert Cache.get
  rw [List.find?_cons_of_neg _ (by simp [Ne.symm h]), find?_filter_ne c k k' h]

/-- Invalidation of a list of keys removes exactly the entries whose key
is listed (regardless of the order of the invalidations). -/
theorem foldl_invalidate (K : List String) :
    ∀ c : Cache, K.foldl (fun c k => c.invalidate k) c =
      c.filter (fun p => decide (¬ p.1 ∈ K)) := by
  induction K with
  | nil =>
    intro c
    simp
  | cons k K ih =>
    intro c
    rw [List.foldl_cons, ih]
    show (Cache.invalidate c k).filter _ = _
    unfold Cache.invalidate
    rw [List.filter_filter]
    apply List.filter_congr
    intro p _
    by_cases h1 : p.1 = k <;> by_cases h2 : p.1 ∈ K <;> simp [h1, h2]

/-- With distinct keys (a map invariant), two entries sharing a key are
the same entry. -/
theorem eq_of_nodup_keys {c : Cache} (hnd : (c.map Prod.fst).Nodup)
    {e e' : String × ReadyVec} (he : e ∈ c) (he' : e' ∈ c) (hk : e.1 = e'.1) :
    e = e' := by
  induction c with
  | nil => cases he
  | cons a c ih =>
    simp only [List.map_cons, List.nodup_cons] at hnd
    rcases List.mem_cons.mp he with rfl | he2 <;>
      rcases List.mem_cons.mp he' with h' | he'2
    · rw [h']
    · exfalso
      apply hnd.1
      rw [hk]
      exact List.mem_map_of_mem Prod.fst he'2
    · exfalso
      apply hnd.1
      rw [h'] at hk
      rw [← hk]
      exact List.mem_map_of_mem Prod.fst he2
    · exact ih hnd.2 he2 he'2

/-- The match loop of `should_rebuild` counts the length of the maximal
all-hit prefix: it stops at the first miss. -/
theorem count_matches_eq_takeWhile (c : Cache) (ls : List (List Token)) :
    count_matches c ls =
      (ls.takeWhile (fun l => c.contains_key (hash_token_vector l))).length := by
  induction ls with
  | nil => rfl
  | cons l rest ih =>
    by_cases h : c.contains_key (hash_token_vector l) <;>
      simp [count_matches, List.takeWhile_cons, h, ih]

/-- The first entry carrying a line drawn from the cache's own line list
is found by the inner scan. -/
theorem tree_step_find {st : LispInterpreter} {l : Nat}
    (hl : l ∈ st.ready_code.map (fun e => e.2.vect_line)) :
    ∃ e, e ∈ st.ready_code ∧
      List.find? (fun x => decide (x.2.vect_line = l)) st.ready_code = some e ∧
      e.2.vect_line = l := by
  rcases List.mem_map.mp hl with ⟨e0, he0, hl0⟩
  have hsome : (List.find? (fun x => decide (x.2.vect_line = l)) st.ready_code).isSome := by
    rw [List.find?_isSome]
    exact ⟨e0, he0, by simpa using hl0⟩
  rcases Option.isSome_iff_exists.mp hsome with ⟨e, he⟩
  exact ⟨e, List.mem_of_find?_eq_some he, he, by simpa using List.find?_some he⟩

/-- Unrolled specification of `get_tree`'s outer loop: it appends, for
each listed line in order, one clone of the first entry carrying it. -/
theorem get_tree_fold (st : LispInterpreter) :
    ∀ (lines : List Nat) (acc : Tree),
    (∀ l ∈ lines, l ∈ st.ready_code.map (fun e => e.2.vect_line)) →
    ((List.foldl (tree_step st) acc lines).tree.map (fun rv => rv.vect_line) =
      acc.tree.map (fun rv => rv.vect_line) ++ lines) ∧
    (∀ rv ∈ (List.foldl (tree_step st) acc lines).tree,
      rv ∈ acc.tree ∨ ∃ e, e ∈ st.ready_code ∧ rv = e.2) := by
  intro lines
  induction lines with
  | nil =>
    intro acc _
    exact ⟨by simp, fun rv hrv => Or.inl hrv⟩
  | cons l ls ih =>
    intro acc hmem
    obtain ⟨e, hec, hfind, hline⟩ := tree_step_find (hmem l (by simp))
    have hstep : tree_step st acc l = acc.add_vec ("line_" ++ toString l) e.2 := by
      simp [tree_step, hfind]
    rw [List.foldl_cons, hstep]
    obtain ⟨h1, h2⟩ := ih (acc.add_vec ("line_" ++ toString l) e.2)
      (fun x hx => hmem x (by simp [hx]))
    constructor
    · rw [h1]
      simp [Tree.add_vec, hline]
    · intro rv hrv
      rcases h2 rv hrv with h | h
      · have : rv ∈ acc.tree ++ [e.2] := h
        rcases List.mem_append.mp this with h' | h'
        · exact Or.inl h'
        · right
          exact ⟨e, hec, by simpa using h'⟩
      · exact Or.inr h

/-- The line sequence of a snapshot is the sorted multiset of the cached
entries' stored lines. -/
theorem get_tree_map_line (st : LispInterpreter) :
    (get_tree st).tree.map (fun rv => rv.vect_line) =
      List.insertionSort (fun a b => a ≤ b)
        (st.ready_code.map (fun e => e.2.vect_line)) := by
  have hperm := List.perm_insertionSort (fun a b => a ≤ b)
    (st.ready_code.map (fun e => e.2.vect_line))
  have h := (get_tree_fold st
    (List.insertionSort (fun a b => a ≤ b) (st.ready_code.map (fun e => e.2.vect_line)))
    Tree.new (fun l hl => hperm.mem_iff.mp hl)).1
  simpa [get_tree, Tree.new] using h

/-- Every unit in a snapshot is a clone of a live cache entry. -/
theorem get_tree_mem (st : LispInterpreter) :
    ∀ rv ∈ (get_tree st).tree, ∃ e, e ∈ st.ready_code ∧ rv = e.2 := by
  have hperm := List.perm_insertionSort (fun a b => a ≤ b)
    (st.ready_code.map (fun e => e.2.vect_line))
  have h := (get_tree_fold st
    (List.insertionSort (fun a b => a ≤ b) (st.ready_code.map (fun e => e.2.vect_line)))
    Tree.new (fun l hl => hperm.mem_iff.mp hl)).2
  intro rv hrv
  have hrv' : rv ∈ (List.foldl (tree_step st)
      Tree.new (List.insertionSort (fun a b => a ≤ b)
        (st.ready_code.map (fun e => e.2.vect_line)))).tree := by
    simpa [get_tree] using hrv
  rcases h rv hrv' with h' | h'
  · cases h'
  · exact h'

end SP

/-! ## Claim C1 — process_vector -/

/-- C1, corrected by restricting to non-empty token vectors (on the empty
vector `process_vector` panics through `is_vect_ready`, see
`C1_counterexample` and C10): for every non-empty token vector and every
line index — contiguous with the frontier or not — `process_vector` either
fails with the validator's or the parser's error leaving the cache and the
frontier exactly as they were, or succeeds, inserting exactly one entry
keyed by the content hash (every other key reads as before) and setting
the frontier to `line + 1`. -/
theorem C1_theorem : ∀ (fromStr : String → Except String SP.Sexp)
    (st : SP.LispInterpreter) (tokens : List VTok.Token) (line : Nat),
    tokens ≠ [] →
    ((∃ e, SP.process_vector fromStr st tokens line = some (.error e, st) ∧
        (SP.is_vect_ready tokens = some (.error e) ∨
          SP.check_syntax_with_rsexp fromStr tokens = .error e)) ∨
     (∃ v st', SP.check_syntax_with_rsexp fromStr tokens = .ok v ∧
        SP.process_vector fromStr st tokens line = some (.ok (), st') ∧
        st'.ready_code = st.ready_code.insert (SP.hash_token_vector tokens)
          (SP.create_ready_vec tokens line (some v)) ∧
        st'.ready_code.get (SP.hash_token_vector tokens) =
          some (SP.create_ready_vec tokens line (some v)) ∧
        (∀ k, k ≠ SP.hash_token_vector tokens →
          st'.ready_code.get k = st.ready_code.get k) ∧
        st'.current_ptr = line + 1 ∧
        st'.total_lines = st.total_lines)) := by
  intro fromStr st tokens line hne
  obtain ⟨r, hr⟩ := SP.is_vect_ready_exists hne
  cases r with
  | error e =>
    left
    exact ⟨e, by simp [SP.process_vector, hr], Or.inl hr⟩
  | ok u =>
    cases u
    cases hp : SP.check_syntax_with_rsexp fromStr tokens with
    | error e =>
      left
      exact ⟨e, by simp [SP.process_vector, hr, hp], Or.inr rfl⟩
    | ok v =>
      right
      refine ⟨v, { st with
        ready_code := st.ready_code.insert (SP.hash_token_vector tokens)
          (SP.create_ready_vec tokens line (some v)),
        current_ptr := line + 1 }, rfl, ?_, rfl, ?_, ?_, rfl, rfl⟩
      · simp [SP.process_vector, hr, hp]
      · exact SP.cache_get_insert_self _ _ _
      · intro k hk
        exact SP.cache_get_insert_ne _ _ _ _ hk

/-- C1, witness: a symbol line accepted by the injected parser at the
non-contiguous line index 5, starting from a fresh session. -/
theorem C1_witness :
    (([⟨VTok.TokenType.Symbol, "x", 0, 0⟩] : List VTok.Token) ≠ []) ∧
    ((∃ e, SP.process_vector SP.okParser (SP.LispInterpreter.new 10000)
          [⟨VTok.TokenType.Symbol, "x", 0, 0⟩] 5 = some (.error e, SP.LispInterpreter.new 10000) ∧
        (SP.is_vect_ready [⟨VTok.TokenType.Symbol, "x", 0, 0⟩] = some (.error e) ∨
          SP.check_syntax_with_rsexp SP.okParser [⟨VTok.TokenType.Symbol, "x", 0, 0⟩] = .error e)) ∨
     (∃ v st', SP.check_syntax_with_rsexp SP.okParser [⟨VTok.TokenType.Symbol, "x", 0, 0⟩] = .ok v ∧
        SP.process_vector SP.okParser (SP.LispInterpreter.new 10000)
          [⟨VTok.TokenType.Symbol, "x", 0, 0⟩] 5 = some (.ok (), st') ∧
        st'.ready_code = (SP.LispInterpreter.new 10000).ready_code.insert
          (SP.hash_token_vector [⟨VTok.TokenType.Symbol, "x", 0, 0⟩])
          (SP.create_ready_vec [⟨VTok.TokenType.Symbol, "x", 0, 0⟩] 5 (some v)) ∧
        st'.ready_code.get (SP.hash_token_vector [⟨VTok.TokenType.Symbol, "x", 0, 0⟩]) =
          some (SP.create_ready_vec [⟨VTok.TokenType.Symbol, "x", 0, 0⟩] 5 (some v)) ∧
        (∀ k, k ≠ SP.hash_token_vector [⟨VTok.TokenType.Symbol, "x", 0, 0⟩] →
          st'.ready_code.get k = (SP.LispInterpreter.new 10000).ready_code.get k) ∧
        st'.current_ptr = 5 + 1 ∧
        st'.total_lines = (SP.LispInterpreter.new 10000).total_lines)) :=
  ⟨by decide, C1_theorem SP.okParser (SP.LispInterpreter.new 10000)
    [⟨VTok.TokenType.Symbol, "x", 0, 0⟩] 5 (by decide)⟩

/-- C1, counterexample to the claim as stated: on the empty token vector
(a legitimate token sequence under the claim's quantifier) `process_vector`
neither fails with a `SyntaxError` nor succeeds — it panics in
`is_vect_ready` (`none` in the model). -/
theorem C1_counterexample :
    SP.process_vector SP.okParser (SP.LispInterpreter.new 10000) [] 0 = none := rfl

/-! ## Claim C2 — should_rebuild -/

/-- C2, confirmed: `should_rebuild` is true whenever the frontier is 0 or
the candidate list is empty; otherwise it scans candidates
`0 .. min(frontier, len)`, counting consecutive cache hits of the content
hashes and stopping at the first miss (`takeWhile`), and returns true
exactly when `matches / frontier < 1/2` in exact arithmetic. -/
theorem C2_theorem : ∀ (st : SP.LispInterpreter) (nc : List (List VTok.Token)),
    SP.should_rebuild st nc = true ↔
      (st.current_ptr = 0 ∨ nc = [] ∨
        ((((nc.take (min st.current_ptr nc.length)).takeWhile
            (fun l => st.ready_code.contains_key (SP.hash_token_vector l))).length : Rat) /
          (st.current_ptr : Rat) < 1 / 2)) := by
  intro st nc
  by_cases h0 : st.current_ptr = 0 ∨ nc.isEmpty = true
  · have hrw : SP.should_rebuild st nc = true := by
      unfold SP.should_rebuild
      rw [if_pos h0]
    rw [hrw]
    rcases h0 with h | h
    · simp [h]
    · simp [List.isEmpty_iff.mp h]
  · have h1 : ¬ st.current_ptr = 0 := fun h => h0 (Or.inl h)
    have h3 : ¬ nc = [] := by
      intro h
      exact h0 (Or.inr (by simp [h]))
    have hrw : SP.should_rebuild st nc =
        decide (((SP.count_matches st.ready_code
            (nc.take (min st.current_ptr nc.length))) : Rat) /
          (st.current_ptr : Rat) < 1 / 2) := by
      unfold SP.should_rebuild
      rw [if_neg h0]
    rw [hrw, SP.count_matches_eq_takeWhile]
    simp [h1, h3, decide_eq_true_iff]

/-! ## Claim C3 — invalidate_from -/

/-- C3, confirmed (under the map invariant that cache keys are distinct,
which every reachable cache satisfies): `invalidate_from k` removes exactly
the entries whose stored line is `>= k` — entries with stored line `< k`
survive unchanged regardless of their key — lowers the frontier to `k`
exactly when `k` is below it, leaves `total_lines` alone, and a snapshot
taken afterwards contains no unit with stored line `>= k`. -/
theorem C3_theorem : ∀ (st : SP.LispInterpreter) (k : Nat),
    (st.ready_code.map Prod.fst).Nodup →
    ((SP.invalidate_from st k).ready_code =
      st.ready_code.filter (fun e => decide (e.2.vect_line < k)) ∧
     (SP.invalidate_from st k).current_ptr =
      (if k < st.current_ptr then k else st.current_ptr) ∧
     (SP.invalidate_from st k).total_lines = st.total_lines ∧
     (∀ rv ∈ (SP.get_tree (SP.invalidate_from st k)).tree, rv.vect_line < k)) := by
  intro st k hnd
  have hmem : ∀ e ∈ st.ready_code,
      (e.1 ∈ (st.ready_code.filter
          (fun x => decide (k ≤ x.2.vect_line))).map Prod.fst ↔
        k ≤ e.2.vect_line) := by
    intro e he
    constructor
    · intro hin
      rcases List.mem_map.mp hin with ⟨e', he', hk⟩
      have he'c : e' ∈ st.ready_code := List.mem_of_mem_filter he'
      have hcond : k ≤ e'.2.vect_line := by
        have := List.of_mem_filter he'
        simpa using this
      have hee : e = e' := SP.eq_of_nodup_keys hnd he he'c (by rw [hk])
      rw [hee]
      exact hcond
    · intro hle
      exact List.mem_map_of_mem Prod.fst
        (List.mem_filter.mpr ⟨he, by simpa using hle⟩)
  have hcache : (SP.invalidate_from st k).ready_code =
      st.ready_code.filter (fun e => decide (e.2.vect_line < k)) := by
    show List.foldl (fun c kk => SP.Cache.invalidate c kk) st.ready_code
        ((st.ready_code.filter (fun e => decide (k ≤ e.2.vect_line))).map Prod.fst) = _
    rw [SP.foldl_invalidate]
    apply List.filter_congr
    intro e he
    by_cases hc : k ≤ e.2.vect_line
    · simp [(hmem e he).mpr hc, Nat.not_lt.mpr hc]
    · have hlt : e.2.vect_line < k := Nat.lt_of_not_le hc
      have hnot : ¬ e.1 ∈ (st.ready_code.filter
          (fun x => decide (k ≤ x.2.vect_line))).map Prod.fst :=
        fun hin => hc ((hmem e he).mp hin)
      simp [hnot, hlt]
  refine ⟨hcache, rfl, rfl, ?_⟩
  intro rv hrv
  rcases SP.get_tree_mem _ rv hrv with ⟨e, he, rfl⟩
  rw [hcache] at he
  have := List.of_mem_filter he
  simpa using this

/-- C3, witness: a cache holding entries for lines 0 and 5 with distinct
keys, invalidated from position 3: the line-5 entry goes, the line-0 entry
survives, the frontier drops from 6 to 3. -/
theorem C3_witness :
    ((SP.stInv.ready_code.map Prod.fst).Nodup) ∧
    ((SP.invalidate_from SP.stInv 3).ready_code =
      SP.stInv.ready_code.filter (fun e => decide (e.2.vect_line < 3)) ∧
     (SP.invalidate_from SP.stInv 3).current_ptr =
      (if 3 < SP.stInv.current_ptr then 3 else SP.stInv.current_ptr) ∧
     (SP.invalidate_from SP.stInv 3).total_lines = SP.stInv.total_lines ∧
     (∀ rv ∈ (SP.get_tree (SP.invalidate_from SP.stInv 3)).tree, rv.vect_line < 3)) :=
  ⟨by decide, C3_theorem SP.stInv 3 (by decide)⟩

/-! ## Claim C5 — snapshot_tree (get_tree) -/

/-- C5, corrected: a snapshot holds one unit per live cache *entry* — not
one per distinct cached line — its units are sorted ascending by stored
line (the line sequence is exactly the sorted multiset of the entries'
stored lines), and every unit is a clone of a live entry; building the
snapshot does not mutate the cache and later cache mutations cannot affect
it (the model's `get_tree` is a pure function into an independent
structure).  When several entries share a stored line the snapshot
contains that many units for the line, all clones of the first entry found
with it (`C5_counterexample`). -/
theorem C5_theorem : ∀ st : SP.LispInterpreter,
    ((SP.get_tree st).tree.map (fun rv => rv.vect_line) =
      List.insertionSort (fun a b => a ≤ b)
        (st.ready_code.map (fun e => e.2.vect_line))) ∧
    ((SP.get_tree st).tree.map (fun rv => rv.vect_line)).Sorted (fun a b => a ≤ b) ∧
    (SP.get_tree st).tree.length = st.ready_code.length ∧
    (∀ rv ∈ (SP.get_tree st).tree, ∃ e, e ∈ st.ready_code ∧ rv = e.2) := by
  intro st
  have hmap := SP.get_tree_map_line st
  refine ⟨hmap, ?_, ?_, SP.get_tree_mem st⟩
  · rw [hmap]
    exact List.sorted_insertionSort _ _
  · have hlen := congrArg List.length hmap
    rw [List.length_map] at hlen
    rw [hlen]
    have hperm := List.perm_insertionSort (fun a b => a ≤ b)
      (st.ready_code.map (fun e => e.2.vect_line))
    rw [hperm.length_eq, List.length_map]

/-- C5, counterexample to the claim as stated: a cache with two live
entries that share stored line 0 (reachable by two successful
`process_vector` calls with different token vectors and the same line)
snapshots to TWO units for the single distinct cached line 0 — not
"exactly one ProcessedUnit per distinct cached line". -/
theorem C5_counterexample :
    (SP.stDup.ready_code.map (fun e => e.2.vect_line) = [0, 0]) ∧
    ((SP.stDup.ready_code.map (fun e => e.2.vect_line)).dedup.length = 1) ∧
    (SP.get_tree SP.stDup).tree.length = 2 ∧
    ((SP.get_tree SP.stDup).tree.map (fun rv => rv.vect_line) = [0, 0]) := by
  refine ⟨rfl, by decide, ?_, ?_⟩ <;> rfl

/-! ## Helper lemmas about the lexer -/

namespace Lx

/-- Trimming never lengthens the remaining input. -/
theorem trimGo_length : ∀ (input : List Char) (b : Bool) (l c : Nat),
    (trimGo b input l c).1.length ≤ input.length := by
  intro input
  induction input with
  | nil =>
    intro b l c
    cases b <;> simp [trimGo]
  | cons ch rest ih =>
    intro b l c
    cases b with
    | true =>
      by_cases h : ch = '\n' <;>
        simp only [trimGo, h, if_true, if_false] <;>
        exact le_trans (ih _ _ _) (Nat.le_succ _)
    | false =>
      by_cases h1 : ch = ' ' ∨ ch = '\n' ∨ ch = '\t' ∨ ch = '\r'
      · simp only [trimGo, h1, if_true]
        exact le_trans (ih _ _ _) (Nat.le_succ _)
      · by_cases h2 : ch = ';'
        · simp only [trimGo, h1, h2, if_false, if_true]
          exact le_trans (ih _ _ _) (Nat.le_succ _)
        · simp only [trimGo, h1, h2, if_false]
          exact le_refl _

/-- The symbol loop only consumes. -/
theorem symbolGo_length : ∀ (input : List Char) (l c : Nat) (acc : String),
    (symbolGo input l c acc).2.1.length ≤ input.length := by
  intro input
  induction input with
  | nil =>
    intro l c acc
    simp [symbolGo]
  | cons ch rest ih =>
    intro l c acc
    by_cases h : isSymbolChar ch = true
    · simp only [symbolGo, h, if_true]
      exact le_trans (ih _ _ _) (Nat.le_succ _)
    · simp only [symbolGo, h, if_false]
      exact le_refl _

/-- The number loop only consumes. -/
theorem digitGo_length : ∀ (input : List Char) (l c : Nat) (dot : Bool) (acc : String),
    (digitGo input l c dot acc).2.1.length ≤ input.length := by
  intro input
  induction input with
  | nil =>
    intro l c dot acc
    simp [digitGo]
  | cons ch rest ih =>
    intro l c dot acc
    by_cases h1 : ch.isDigit = true
    · simp only [digitGo, h1, if_true]
      exact le_trans (ih _ _ _ _) (Nat.le_succ _)
    · by_cases h2 : ch = '.' ∧ dot = false
      · simp only [digitGo, h1, h2, if_false, if_true]
        exact le_trans (ih _ _ _ _) (Nat.le_succ _)
      · simp only [digitGo, h1, h2, if_false]
        exact le_refl _

/-- The string loop only consumes (it eats one or two characters per
iteration). -/
theorem stringGo_length : ∀ (N : Nat) (input : List Char), input.length ≤ N →
    ∀ (l c : Nat) (acc : String),
    (stringGo input l c acc).2.1.length ≤ input.length := by
  intro N
  induction N with
  | zero =>
    intro input hlen l c acc
    have : input = [] := List.length_eq_zero.mp (Nat.le_zero.mp hlen)
    subst this
    simp [stringGo]
  | succ N ih =>
    intro input hlen l c acc
    cases input with
    | nil => simp [stringGo]
    | cons ch rest =>
      by_cases h1 : ch = '\"'
      · simp only [stringGo, h1, if_true]
        simp
      · by_cases h2 : ch = '\\'
        · cases rest with
          | nil => simp [stringGo, h1, h2]
          | cons e rest2 =>
            simp only [stringGo, h1, h2, if_false, if_true]
            have hr : rest2.length ≤ N := by
              simp only [List.length_cons] at hlen
              omega
            exact le_trans (ih rest2 hr _ _ _) (by simp; omega)
        · simp only [stringGo, h1, h2, if_false]
          have hr : rest.length ≤ N := by
            simp only [List.length_cons] at hlen
            omega
          exact le_trans (ih rest hr _ _ _) (Nat.le_succ _)

/-- `tokenize_symbol` only consumes. -/
theorem tokenize_symbol_length (first : Char) (input : List Char) (l c : Nat) :
    (tokenize_symbol first input l c).2.1.length ≤ input.length := by
  unfold tokenize_symbol
  exact symbolGo_length input l c _

/-- `tokenize_number` only consumes. -/
theorem tokenize_number_length (first : Char) (input : List Char) (l c : Nat) :
    (tokenize_number first input l c).2.1.length ≤ input.length := by
  unfold tokenize_number
  split_ifs
  · exact le_refl _
  · exact digitGo_length input l c false _

/-- `tokenize_string` only consumes. -/
theorem tokenize_string_length (input : List Char) (l c : Nat) :
    (tokenize_string input l c).2.1.length ≤ input.length := by
  unfold tokenize_string
  cases input with
  | nil => simp
  | cons c2 r2 =>
    simp only [List.length_cons]
    exact le_trans (stringGo_length r2.length r2 le_rfl _ _ "") (Nat.le_succ _)

set_option maxHeartbeats 1000000 in
/-- The dispatch never leaves more input than was unconsumed before it. -/
theorem dispatch_length (ch : Char) (rest : List Char) (tl tc : Nat) :
    (dispatch ch rest tl tc).2.input.length ≤ rest.length := by
  cases rest with
  | nil =>
    unfold dispatch
    split_ifs <;>
      simp [mkSt, tokenize_string, tokenize_number, tokenize_symbol,
        symbolGo, digitGo, peekNotDigit]
  | cons b rest2 =>
    unfold dispatch
    split_ifs <;>
      simp only [mkSt] <;>
      first
        | exact Nat.le_refl _
        | exact Nat.le_succ _
        | exact tokenize_string_length _ _ _
        | exact tokenize_number_length _ _ _ _
        | exact tokenize_symbol_length _ _ _ _
        | (simp; done)
        | (split_ifs <;>
            first
              | exact Nat.le_succ _
              | exact tokenize_symbol_length _ _ _ _
              | (simp; done))

/-- Every token other than end-of-input consumes at least one character. -/
theorem next_token_progress (st : LexState) :
    (next_token st).1 ≠ .EOF → (next_token st).2.input.length < st.input.length := by
  intro he
  have htrim := trimGo_length st.input false st.line st.column
  rcases htr : trimGo false st.input st.line st.column with ⟨ti, tl, tc⟩
  rw [htr] at htrim
  simp only at htrim
  have hnt : next_token st = (match (ti, tl, tc) with
    | ([], tl, tc) => ((.EOF : TokenEnum), ({ input := [], line := tl, column := tc } : LexState))
    | (ch :: rest, tl, tc) => dispatch ch rest tl tc) := by
    unfold next_token
    rw [htr]
  rw [hnt] at he ⊢
  cases ti with
  | nil => exact absurd rfl he
  | cons ch rest =>
    simp only at he ⊢
    have h1 := dispatch_length ch rest tl tc
    have h2 : rest.length < st.input.length := by
      simp only [List.length_cons] at htrim
      omega
    omega

/-- The fuel `tokenize_all` supplies is sufficient: any two fuels beyond
the remaining input length produce the same token list, so the fueled
loop agrees with the source's unbounded loop. -/
theorem tokenize_all_go_fuel : ∀ (n m : Nat) (st : LexState),
    st.input.length < n → st.input.length < m →
    tokenize_all_go n st = tokenize_all_go m st := by
  intro n
  induction n with
  | zero =>
    intro m st hn
    omega
  | succ n ih =>
    intro m st hn hm
    cases m with
    | zero => omega
    | succ m =>
      by_cases he : (next_token st).1 = .EOF
      · simp [tokenize_all_go, he]
      · have hlt := next_token_progress st he
        simp only [tokenize_all_go, he, if_false]
        rw [ih m (next_token st).2 (by omega) (by omega)]

/-- Every token the loop of `tokenize_all` emits carries the cursor
position reached after the `next_token` call that produced it: the `k`-th
token carries the position of the `(k+1)`-st iterate of the lexer step. -/
theorem tokenize_all_go_pos :
    ∀ (n : Nat) (st : LexState) (k : Nat) (h : k < (tokenize_all_go n st).length),
      ((tokenize_all_go n st).get ⟨k, h⟩).line = (lexStep^[k + 1] st).line ∧
      ((tokenize_all_go n st).get ⟨k, h⟩).column = (lexStep^[k + 1] st).column := by
  intro n
  induction n with
  | zero =>
    intro st k h
    simp [tokenize_all_go] at h
  | succ n ih =>
    intro st k h
    by_cases he : (next_token st).1 = .EOF
    · have hgo : tokenize_all_go (n + 1) st =
          [{ token := (next_token st).1, line := (next_token st).2.line,
             column := (next_token st).2.column }] := by
        simp [tokenize_all_go, he]
      have hk : k = 0 := by
        rw [hgo] at h
        simpa using h
      subst hk
      constructor <;>
        simp [hgo, Function.iterate_one, lexStep, List.get]
    · have hgo : tokenize_all_go (n + 1) st =
          { token := (next_token st).1, line := (next_token st).2.line,
            column := (next_token st).2.column } :: tokenize_all_go n (next_token st).2 := by
        simp [tokenize_all_go, he]
      cases k with
      | zero =>
        constructor <;> simp [hgo, Function.iterate_one, lexStep, List.get]
      | succ k =>
        have hlen : k < (tokenize_all_go n (next_token st).2).length := by
          rw [hgo] at h
          simpa using h
        have hget : (tokenize_all_go (n + 1) st).get ⟨k + 1, h⟩ =
            (tokenize_all_go n (next_token st).2).get ⟨k, hlen⟩ := by
          rw [List.get_of_eq hgo ⟨k + 1, h⟩]
          exact List.get_cons_succ
        rw [hget]
        have := ih (next_token st).2 k hlen
        rw [Function.iterate_succ_apply (f := lexStep) (n := k + 1) (x := st)]
        exact this

end Lx

/-! ## Claim C7 — token positions -/

/-- C7, corrected: every token of `tokenize_all` carries the `(line,
column)` cursor position reached *after* the token — leading
whitespace/comments and the whole lexeme — was consumed (`get_position()`
is sampled after `next_token` returns; the string arm's one-column
adjustment is part of that final state), not the position before its first
lexeme character (`C7_counterexample`). -/
theorem C7_theorem : ∀ (s : String) (k : Nat) (h : k < (Lx.tokenize_all s).length),
    ((Lx.tokenize_all s).get ⟨k, h⟩).line =
      (Lx.lexStep^[k + 1] (Lx.LexState.init s)).line ∧
    ((Lx.tokenize_all s).get ⟨k, h⟩).column =
      (Lx.lexStep^[k + 1] (Lx.LexState.init s)).column :=
  fun _ k h => Lx.tokenize_all_go_pos _ _ k h

/-- C7, witness: the first token of `"("` carries the column of the cursor
after one lexer step. -/
theorem C7_witness :
    0 < (Lx.tokenize_all "(").length ∧
    ((Lx.tokenize_all "(").get ⟨0, by decide⟩).column =
      (Lx.lexStep^[1] (Lx.LexState.init "(")).column :=
  ⟨by decide, ( C7_theorem "(" 0 (by decide)).2⟩

/-- C7, counterexample to the claim as stated: lexing `"("`, the cursor
before the open paren's single lexeme character is consumed sits at
`(1, 0)` (trimming consumes nothing), yet the emitted token carries column
1 — the position after consumption — so the claimed before-start position
is not what any token carries. -/
theorem C7_counterexample :
    Lx.tokenize_all "(" =
      [{ token := .LeftParen, line := 1, column := 1 },
       { token := .EOF, line := 1, column := 1 }] ∧
    Lx.trimGo false "(".data 1 0 = ("(".data, 1, 0) ∧
    (1 : Nat) ≠ 0 :=
  ⟨rfl, rfl, by decide⟩

/-! ## Claim C8 — validating a lone close paren -/

/-- C8, corrected: tokenizing the line `")"` and validating the adapted
token sequence fails with `UnexpectedClosingParen` carrying the offending
close-paren token's position — which is line 1, column **1**, because the
lexer attaches the post-consumption cursor position (C7), not column 0. -/
theorem C8_theorem :
    SP.is_vect_ready (lexLine ")") =
      some (.error (.UnexpectedClosingParen 1 1)) ∧
    (Lx.tokenize_all ")").head?.map (fun t => (t.line, t.column)) = some (1, 1) :=
  ⟨rfl, rfl⟩

/-- C8, counterexample to the claim as stated: the reported column is 1,
not 0. -/
theorem C8_counterexample :
    SP.is_vect_ready (lexLine ")") =
      some (.error (.UnexpectedClosingParen 1 1)) ∧ (1 : Nat) ≠ 0 :=
  ⟨rfl, by decide⟩

/-! ## Claim C9 — string literals -/

/-- C9: evaluating the lexer at the failing input `"ab"` (a four-character
source line: quote, `a`, `b`, quote).  The claim — string content is the
input up to the next unescaped quote, escapes translated — requires the
token `String "ab"`; the code emits `String "b"`: `tokenize_string` opens
with an unconditional `next_element()` meant to skip the opening quote,
but `next_token` has already consumed that quote, so the call eats the
first content character (`a`).  The code contradicts its own
documentation ("Tokenizes a string literal") and the specification's
intent, a slip — a code bug, not a specification error. -/
theorem C9_theorem :
    Lx.tokenize_all "\"ab\"" =
      [{ token := .String "b", line := 1, column := 3 },
       { token := .EOF, line := 1, column := 3 }] ∧
    ("b" : String) ≠ "ab" :=
  ⟨rfl, by decide⟩

end LispSpec
